import Mathlib

/-!
Shallow embedding of `rstparse` (src/rstparse/__init__.py): a line-oriented,
regex-driven scanner that expands `auto*` ReST directives with rendered
documentation and builds a symbol → line-number index.

The introspection backend (`pydoc.locate` / `pydoc.render_doc`) is modelled as
an abstract `Backend` record; `pydoc.locate` may raise `ErrorDuringImport`,
modelled by the `importError` outcome.  Each Python regex used by the source is
embedded as an executable function over `List Char` with Python's
leftmost-match and greedy/lazy backtracking semantics.
-/

namespace Rstparse

/-- Outcome of `pydoc.locate(name)`: an object was found, `None` was returned,
or `pydoc.ErrorDuringImport` was raised. -/
inductive LocateResult where
  | found
  | notFound
  | importError
deriving DecidableEq, Repr

/-- The introspection/rendering backend (`pydoc`).  `renderDoc` abstracts
`pydoc.render_doc(name).splitlines()` as the list of rendered lines. -/
structure Backend where
  locate : String → LocateResult
  renderDoc : String → List String

/-- The transient context cursor: current module and current class
(`self.module` / `self.cls`). -/
structure Ctx where
  module : Option String
  cls : Option String
deriving DecidableEq, Repr

/-- The symbol index `self.indices`: a mapping from fully-qualified symbol
name to line number. -/
abbrev Index := String → Option Nat

/-- `DIRECTIVES_TO_INCLUDE` from the source, in source order. -/
def DIRECTIVES_TO_INCLUDE : List String :=
  ["autosummary_", "module", "currentmodule", "automodule", "class",
   "autoclass", "method", "classmethod", "coroutinemethod", "automethod",
   "staticmethod", "function", "autofunction", "c:function", "data",
   "attribute", "exception", "c:var", "c:type", "decorator", "envvar",
   "autodata"]

/-- The backspace character `\x08` used by `pydoc` bold/underline artifacts. -/
def bsChar : Char := Char.ofNat 8

/-- `\w` of Python's `re` (ASCII fragment): letters, digits, underscore. -/
def isWordChar (c : Char) : Bool := c.isAlphanum || c = '_'

/-- Attempt of the regex `\.\. *([^:]+):: *(.*)` anchored at the head of the
list.  After the two dots, ` *` (greedy) followed by `([^:]+)` (greedy)
together consume the maximal run `t` of non-colon characters; backtracking
makes the group `t` minus its leading spaces, except that when `t` consists of
spaces only the group is the single last space.  `::` must follow `t`
immediately; the second group is the remainder minus its leading spaces. -/
def matchDirectiveFrom : List Char → Option (List Char × List Char)
  | '.' :: '.' :: rest =>
    let t := rest.takeWhile (fun c => c ≠ ':')
    if t.isEmpty then none
    else
      match rest.drop t.length with
      | ':' :: ':' :: after =>
        let g1 := if (t.dropWhile (fun c => c = ' ')).isEmpty then [' ']
                  else t.dropWhile (fun c => c = ' ')
        some (g1, after.dropWhile (fun c => c = ' '))
      | _ => none
  | _ => none

/-- `re.search` of the directive regex: leftmost successful attempt. -/
def searchDirective : List Char → Option (List Char × List Char)
  | [] => none
  | c :: cs =>
    match matchDirectiveFrom (c :: cs) with
    | some r => some r
    | none => searchDirective cs

/-- `parse_directive` from the source: return `(directive, value)` if the
regex `\.\. *([^:]+):: *(.*)` matches somewhere in the line, and
`(none, none)` otherwise. -/
def parse_directive (astr : String) : Option String × Option String :=
  match searchDirective astr.data with
  | some (g1, g2) => (some (String.mk g1), some (String.mk g2))
  | none => (none, none)

/-- `'.'.join` on a list of strings. -/
def joinDot : List String → String
  | [] => ""
  | [x] => x
  | x :: xs => x ++ "." ++ joinDot xs

/-- `compose_name` from the source: drop the `None` components and join the
rest with a dot. -/
def compose_name (kargs : List (Option String)) : String :=
  joinDot (kargs.filterMap id)

/-- `is_valid_name` from the source: `pydoc.locate` wrapped in a
`try/except pydoc.ErrorDuringImport` that returns `False`; `True` exactly when
an object was found. -/
def is_valid_name (b : Backend) (name : String) : Bool :=
  match b.locate name with
  | .found => true
  | .notFound => false
  | .importError => false

/-- `resolve_name` from the source: `for m in [module, None]: for c in
[cls, None]:` probe `compose_name(m, c, name)` and return the first valid
composition, else `None`. -/
def resolve_name (b : Backend) (module cls : Option String) (name : String) :
    Option String :=
  (List.flatMap [module, none]
    (fun m => [cls, none].map (fun c => compose_name [m, c, some name]))
    ).find? (fun n => is_valid_name b n)

/-- Attempt of the regex `\|  (\w\x08[\w\x08]+)` anchored at the head:
literal `|`, two spaces, then the group: a word character, a backspace, and a
nonempty greedy run of word-or-backspace characters. -/
def searchMethodSigFrom : List Char → Option (List Char)
  | '|' :: ' ' :: ' ' :: rest =>
    match rest with
    | w :: x :: rest2 =>
      if isWordChar w ∧ x = bsChar then
        let run := rest2.takeWhile (fun c => isWordChar c || c = bsChar)
        if run.isEmpty then none else some (w :: x :: run)
      else none
    | _ => none
  | _ => none

/-- `re.search` of the method-signature regex: leftmost successful attempt. -/
def searchMethodSig : List Char → Option (List Char)
  | [] => none
  | c :: cs =>
    match searchMethodSigFrom (c :: cs) with
    | some r => some r
    | none => searchMethodSig cs

/-- The literal part of the regex ` = class (\w+)`. -/
def eqClassLit : List Char := (" = class ").data

/-- Attempt of ` = class (\w+)` anchored at the head of the list. -/
def searchEqClassFrom (l : List Char) : Option (List Char) :=
  if eqClassLit.isPrefixOf l then
    let w := (l.drop eqClassLit.length).takeWhile isWordChar
    if w.isEmpty then none else some w
  else none

/-- `re.search` of ` = class (\w+)`: leftmost successful attempt. -/
def searchEqClass : List Char → Option (List Char)
  | [] => none
  | c :: cs =>
    match searchEqClassFrom (c :: cs) with
    | some r => some r
    | none => searchEqClass cs

/-- `re.sub(r'.\x08', '', line)`: left-to-right removal of non-overlapping
(any-char, backspace) pairs; `.` does not match a newline. -/
def stripBackspace : List Char → List Char
  | a :: b :: rest =>
    if b = bsChar ∧ a ≠ '\n' then stripBackspace rest
    else a :: stripBackspace (b :: rest)
  | l => l

/-- `re.sub(r'\(.+', '', name)` of `register_index`: delete everything from
the leftmost `(` that is followed by at least one character. -/
def subParen : List Char → List Char
  | [] => []
  | '(' :: _ :: _ => []
  | c :: cs => c :: subParen cs

/-- Does ` *\(.+` match at the head of the list?  (Greedy spaces, then `(`,
then at least one further character.) -/
def classParenAt (l : List Char) : Bool :=
  match l.dropWhile (fun c => c = ' ') with
  | '(' :: _ :: _ => true
  | _ => false

/-- `re.sub(r' *\(.+', '', val)` of `track_context`: delete everything from
the leftmost position where ` *\(.+` matches. -/
def subClassParen : List Char → List Char
  | [] => []
  | c :: cs => if classParenAt (c :: cs) then [] else c :: subClassParen cs

/-- The literal part of the regex ` *class (\w+)`. -/
def classLit : List Char := ("class ").data

/-- `re.match(r' *class (\w+)', line)`: anchored at the start, greedy spaces,
the literal `class `, then a nonempty run of word characters. -/
def matchLeadingClass (l : List Char) : Option (List Char) :=
  let l2 := l.dropWhile (fun c => c = ' ')
  if classLit.isPrefixOf l2 then
    let w := (l2.drop classLit.length).takeWhile isWordChar
    if w.isEmpty then none else some w
  else none

/-- `track_context` from the source: the four context-updating rules applied
in source order to one line. -/
def track_context (ctx : Ctx) (line : String) : Ctx :=
  let kv := parse_directive line
  let module1 :=
    if kv.1 = some "module" ∨ kv.1 = some "currentmodule" ∨
        kv.1 = some "automodule" then kv.2
    else ctx.module
  let cls1 :=
    if kv.1 = some "class" ∨ kv.1 = some "autoclass" then
      kv.2.map (fun v => String.mk (subClassParen v.data))
    else ctx.cls
  let cls2 :=
    match searchEqClass line.data with
    | some w => some (String.mk w)
    | none => cls1
  let cls3 :=
    match matchLeadingClass (stripBackspace line.data) with
    | some w => some (String.mk w)
    | none => cls2
  { module := module1, cls := cls3 }

/-- `pydoc_lines_for` from the source: resolve the name, and on success return
the rendered document's lines with the two header lines discarded. -/
def pydoc_lines_for (b : Backend) (ctx : Ctx) (name : String) : List String :=
  match resolve_name b ctx.module ctx.cls name with
  | none => []
  | some n => (b.renderDoc n).drop 2

/-- Python's `str.startswith`, as a computation on the character lists. -/
def strStartsWith (s pre : String) : Bool := pre.data.isPrefixOf s.data

/-- The loop body of `expand_auto_directives`, with the context threaded
explicitly. -/
def expandGo (b : Backend) : List String → Ctx → List String
  | [], _ => []
  | line :: rest, ctx =>
    let ctx2 := track_context ctx line
    let kv := parse_directive line
    let extra :=
      match kv with
      | (some key, some v) =>
        if key ≠ "" ∧ strStartsWith key "auto" ∧ v ≠ "" then
          pydoc_lines_for b ctx2 v
        else []
      | _ => []
    line :: (extra ++ expandGo b rest ctx2)

/-- `expand_auto_directives` from the source: reset the context, then scan,
appending each line followed by the pydoc lines of any `auto*` directive. -/
def expand_auto_directives (b : Backend) (lines : List String) : List String :=
  expandGo b lines { module := none, cls := none }

/-- Assignment `self.indices[key] = v` on the index mapping. -/
def updateIdx (idx : Index) (key : String) (v : Nat) : Index :=
  fun k => if k = key then some v else idx k

/-- `register_index` from the source: strip a trailing parenthesized part,
resolve, and record the resolved name (when truthy) at `lineno`. -/
def register_index (b : Backend) (ctx : Ctx) (idx : Index) (name : String)
    (lineno : Nat) : Index :=
  let name2 := String.mk (subParen name.data)
  match resolve_name b ctx.module ctx.cls name2 with
  | some n => if n ≠ "" then updateIdx idx n lineno else idx
  | none => idx

/-- The loop body of `parse_indices`, with line number, context and index
threaded explicitly.  The result is `none` when the Python code raises
`TypeError` (method-signature line with `self.cls = None`). -/
def parseIndicesGo (b : Backend) :
    List String → Nat → Ctx → Index → Option Index
  | [], _, _, idx => some idx
  | line :: rest, lineno, ctx, idx =>
    let kv := parse_directive line
    let idx1 :=
      match kv with
      | (some key, some v) =>
        if key ∈ DIRECTIVES_TO_INCLUDE ∧ v ≠ "" then
          register_index b ctx idx v lineno
        else idx
      | _ => idx
    match searchMethodSig line.data with
    | some g =>
      match ctx.cls with
      | none => none
      | some c =>
        let mname := String.mk (stripBackspace g)
        parseIndicesGo b rest (lineno + 1) (track_context ctx line)
          (register_index b ctx idx1 (c ++ "." ++ mname) lineno)
    | none => parseIndicesGo b rest (lineno + 1) (track_context ctx line) idx1

/-- `parse_indices` from the source: reset the context and scan all lines,
starting from the index accumulated so far. -/
def parse_indices (b : Backend) (lines : List String) (idx : Index) :
    Option Index :=
  parseIndicesGo b lines 0 { module := none, cls := none } idx

/-- `parse` from the source: expand, then index (a fresh parser starts with an
empty `indices` dictionary). -/
def parse (b : Backend) (lines : List String) :
    Option (List String × Index) :=
  let expanded := expand_auto_directives b lines
  (parse_indices b expanded (fun _ => none)).map (fun idx => (expanded, idx))

/-- The inner lazy group `(.+?)\n\n` of the autosummary regex (with `DOTALL`):
the shortest nonempty prefix followed immediately by two newlines; returns the
group and the suffix after the two newlines. -/
def findInner : List Char → Option (List Char × List Char)
  | [] => none
  | c :: cs =>
    if cs.take 2 = ['\n', '\n'] then some ([c], cs.drop 2)
    else (findInner cs).map (fun gr => (c :: gr.1, gr.2))

/-- The tail `.*?\n\n(.+?)\n\n` of the autosummary regex: the lazy `.*?`
consumes one character at a time until `\n\n` followed by a successful inner
match is found. -/
def findTail : List Char → Option (List Char × List Char)
  | [] => none
  | c :: cs =>
    if c = '\n' ∧ cs.take 1 = ['\n'] then
      match findInner cs.tail with
      | some gr => some gr
      | none => findTail cs
    else findTail cs

/-- The literal ` autosummary::` part of the block regex
`\n.. autosummary::.*?\n\n(.+?)\n\n` (the two dots are unescaped and match any
two characters). -/
def asLit : List Char := (" autosummary::").data

/-- Attempt of the autosummary block regex anchored at the head of the list:
a newline, two arbitrary characters, the literal ` autosummary::`, then the
lazy tail.  Returns the captured entry block and the suffix after the match. -/
def matchASFrom : List Char → Option (List Char × List Char)
  | '\n' :: _ :: _ :: rest =>
    if asLit.isPrefixOf rest then findTail (rest.drop asLit.length) else none
  | _ => none

/-- Split a character list at newlines (both `re.MULTILINE` line starts and a
helper for `splitlines`). -/
def splitNl : List Char → List (List Char)
  | [] => [[]]
  | c :: cs =>
    if c = '\n' then [] :: splitNl cs
    else
      match splitNl cs with
      | l :: ls => (c :: l) :: ls
      | [] => [[c]]

/-- Join lines with newlines (inverse of `splitNl`). -/
def joinNl : List (List Char) → List Char
  | [] => []
  | [x] => x
  | x :: xs => x ++ '\n' :: joinNl xs

/-- The replacement text `.. autosummary_:: ` of `repl_autoloaded`. -/
def asPseudo : List Char := (".. autosummary_:: ").data

/-- `re.sub(r'^ +', '.. autosummary_:: ', ..., flags=re.MULTILINE)` on one
line: replace a nonempty run of leading spaces with the pseudo-directive. -/
def subLeadLine (l : List Char) : List Char :=
  if (l.takeWhile (fun c => c = ' ')).isEmpty then l
  else asPseudo ++ l.dropWhile (fun c => c = ' ')

/-- The multiline leading-space substitution of `repl_autoloaded`. -/
def subLeadingSpaces (l : List Char) : List Char :=
  joinNl ((splitNl l).map subLeadLine)

/-- `repl_autoloaded` from the source: `'\n' + buf + '\n\n'` around the
substituted group. -/
def replAutoloaded (g : List Char) : List Char :=
  '\n' :: subLeadingSpaces g ++ ['\n', '\n']

/-- Fueled worker for the global `re.sub` scan.  A replaced match always
consumes at least one character, so `fuel = length` (as supplied by `reSubAS`)
never runs out; the fuel only makes the recursion structural. -/
def reSubASFuel : Nat → List Char → List Char
  | _, [] => []
  | 0, c :: cs => c :: cs
  | fuel + 1, c :: cs =>
    match matchASFrom (c :: cs) with
    | some gr => replAutoloaded gr.1 ++ reSubASFuel fuel gr.2
    | none => c :: reSubASFuel fuel cs

/-- The global `re.sub` over the whole buffer: scan left to right, replacing
each non-overlapping match of the autosummary block regex and continuing after
the replaced region. -/
def reSubAS (l : List Char) : List Char := reSubASFuel l.length l

/-- Python `str.splitlines` restricted to `\n` line terminators: the final
newline produces no trailing empty line. -/
def splitlinesCh (l : List Char) : List (List Char) :=
  match l with
  | [] => []
  | _ =>
    if l.getLast? = some '\n' then (splitNl l).dropLast else splitNl l

/-- `read` from the source: apply the autosummary-block substitution to the
whole text, then store its `splitlines`. -/
def read (text : String) : List String :=
  (splitlinesCh (reSubAS text.data)).map String.mk

/-- The index-assignment events (`resolved-name`, `lineno`) that one
`register_index` call performs: one assignment on success, none otherwise. -/
def registerEvents (b : Backend) (ctx : Ctx) (name : String) (lineno : Nat) :
    List (String × Nat) :=
  let name2 := String.mk (subParen name.data)
  match resolve_name b ctx.module ctx.cls name2 with
  | some n => if n ≠ "" then [(n, lineno)] else []
  | none => []

/-- Apply a list of index assignments in order (last writer wins). -/
def applyEvents (idx : Index) (evs : List (String × Nat)) : Index :=
  evs.foldl (fun i e => updateIdx i e.1 e.2) idx

/-- The assignment events performed by one iteration of the `parse_indices`
loop, or `none` when that iteration raises. -/
def lineEvents (b : Backend) (ctx : Ctx) (line : String) (lineno : Nat) :
    Option (List (String × Nat)) :=
  let kv := parse_directive line
  let evs1 :=
    match kv with
    | (some key, some v) =>
      if key ∈ DIRECTIVES_TO_INCLUDE ∧ v ≠ "" then
        registerEvents b ctx v lineno
      else []
    | _ => []
  match searchMethodSig line.data with
  | some g =>
    match ctx.cls with
    | none => none
    | some c =>
      some (evs1 ++
        registerEvents b ctx (c ++ "." ++ String.mk (stripBackspace g)) lineno)
  | none => some evs1

/-- All assignment events of an indexing pass (independent of the index the
pass starts from). -/
def indexEventsGo (b : Backend) :
    List String → Nat → Ctx → Option (List (String × Nat))
  | [], _, _ => some []
  | line :: rest, lineno, ctx =>
    match lineEvents b ctx line lineno with
    | none => none
    | some evs =>
      (indexEventsGo b rest (lineno + 1) (track_context ctx line)).map
        (fun evs2 => evs ++ evs2)

/-- The value of the last assignment to `k` in an event list, if any. -/
def lastVal : List (String × Nat) → String → Option Nat
  | [], _ => none
  | e :: evs, k =>
    match lastVal evs k with
    | some v => some v
    | none => if k = e.1 then some e.2 else none

/-- A backend for which every name is valid (and renders no documentation). -/
def allValidBackend : Backend :=
  { locate := fun _ => .found, renderDoc := fun _ => [] }

/-- A backend whose `locate` always raises `ErrorDuringImport`. -/
def importErrorBackend : Backend :=
  { locate := fun _ => .importError, renderDoc := fun _ => [] }

/-- A backend whose `locate` always returns `None` (not found). -/
def notFoundBackend : Backend :=
  { locate := fun _ => .notFound, renderDoc := fun _ => [] }

/-- The backend of the C2 scenario: exactly `pkg.Widget` is valid, and its
rendered documentation is a two-line banner followed by `L1` and `L2`. -/
def widgetBackend : Backend :=
  { locate := fun n => if n = "pkg.Widget" then .found else .notFound,
    renderDoc := fun n =>
      if n = "pkg.Widget" then ["banner1", "banner2", "L1", "L2"] else [] }

/-- The two-line input document of the C2 scenario. -/
def demoLines : List String := [".. module:: pkg", ".. autoclass:: Widget"]

/-- A rendered method-signature line `|  m\x08m` (bold `m` in pydoc output),
which is not a directive. -/
def methodSigLine : String := String.mk ['|', ' ', ' ', 'm', bsChar, 'm']

end Rstparse

namespace Rstparse

theorem joinDot_cons_cons (a b : String) (rest : List String) :
    joinDot (a :: b :: rest) = a ++ "." ++ joinDot (b :: rest) := rfl

theorem compose_name_all_some (a b c : String) :
    compose_name [some a, some b, some c] = a ++ "." ++ (b ++ "." ++ c) := rfl

theorem compose_name_mid_none (a c : String) :
    compose_name [some a, none, some c] = a ++ "." ++ c := rfl

theorem compose_name_left_none (b c : String) :
    compose_name [none, some b, some c] = b ++ "." ++ c := rfl

theorem compose_name_only_last (c : String) :
    compose_name [none, none, some c] = c := rfl

/-- C1: with both a current module and a current class set, `resolve_name`
probes exactly `module.cls.name`, `module.name`, `cls.name`, `name` in that
order and returns the first candidate the backend validates, or `none` if no
candidate is valid; an absent module or class component is skipped in the
composition (never treated as an empty string). -/
theorem C1_resolve_name_probe_order (b : Backend) (m c name : String) :
    (resolve_name b (some m) (some c) name =
      (if is_valid_name b (m ++ "." ++ (c ++ "." ++ name)) then
        some (m ++ "." ++ (c ++ "." ++ name))
       else if is_valid_name b (m ++ "." ++ name) then some (m ++ "." ++ name)
       else if is_valid_name b (c ++ "." ++ name) then some (c ++ "." ++ name)
       else if is_valid_name b name then some name
       else none)) ∧
    (resolve_name b none (some c) name =
      (if is_valid_name b (c ++ "." ++ name) then some (c ++ "." ++ name)
       else if is_valid_name b name then some name
       else none)) ∧
    (resolve_name b (some m) none name =
      (if is_valid_name b (m ++ "." ++ name) then some (m ++ "." ++ name)
       else if is_valid_name b name then some name
       else none)) ∧
    (resolve_name b none none name =
      (if is_valid_name b name then some name
       else none)) := by
  refine ⟨?_, ?_, ?_, ?_⟩ <;>
    simp only [resolve_name, List.flatMap_cons, List.flatMap_nil, List.map_cons,
      List.map_nil, List.append_nil, List.cons_append, List.nil_append,
      compose_name_all_some, compose_name_mid_none, compose_name_left_none,
      compose_name_only_last, List.find?] <;>
    repeat' split <;> simp_all

/-- C2: for the two-line document `.. module:: pkg` / `.. autoclass:: Widget`
and a backend validating exactly `pkg.Widget` whose rendered documentation,
after the two-line banner, is `L1`, `L2`: expansion yields the two original
lines with `L1`, `L2` spliced immediately after the autoclass line, and the
index pass records `pkg.Widget ↦ 1`, the zero-based position of the autoclass
line in the final sequence. -/
theorem C2_expand_and_index_scenario :
    expand_auto_directives widgetBackend demoLines =
      [".. module:: pkg", ".. autoclass:: Widget", "L1", "L2"] ∧
    (parse widgetBackend demoLines).map
        (fun r => (r.1, r.2 "pkg.Widget", r.2 "pkg", r.2 "L1", r.2 "L2")) =
      some ([".. module:: pkg", ".. autoclass:: Widget", "L1", "L2"],
        some 1, none, none, none) := by
  constructor <;> rfl

theorem resolve_name_none_of_importError (b : Backend)
    (herr : ∀ n, b.locate n = .importError) (mod cls : Option String)
    (name : String) : resolve_name b mod cls name = none := by
  apply List.find?_eq_none.mpr
  intro x _
  simp [is_valid_name, herr x]

theorem pydoc_lines_for_nil_of_importError (b : Backend)
    (herr : ∀ n, b.locate n = .importError) (ctx : Ctx) (name : String) :
    pydoc_lines_for b ctx name = [] := by
  simp [pydoc_lines_for, resolve_name_none_of_importError b herr]

theorem expandGo_id_of_importError (b : Backend)
    (herr : ∀ n, b.locate n = .importError) :
    ∀ (lines : List String) (ctx : Ctx), expandGo b lines ctx = lines := by
  intro lines
  induction lines with
  | nil => intro ctx; rfl
  | cons line rest ih =>
    intro ctx
    rw [expandGo]
    rcases parse_directive line with ⟨k, v⟩
    cases k <;> cases v <;>
      simp [ih, pydoc_lines_for_nil_of_importError b herr]

/-- C3: a backend import error raised during validation is caught and treated
identically to "not found": `is_valid_name` is `false` (as with an
always-not-found backend), resolution returns `none`, no documentation lines
are produced or spliced (expansion leaves every line unchanged), and no index
entry is recorded. -/
theorem C3_import_error_treated_as_not_found (b bnf : Backend) (name : String)
    (mod cls : Option String) (lines : List String) (idx : Index)
    (lineno : Nat)
    (herr : ∀ n, b.locate n = .importError)
    (hnf : ∀ n, bnf.locate n = .notFound) :
    is_valid_name b name = false ∧
    is_valid_name b name = is_valid_name bnf name ∧
    resolve_name b mod cls name = none ∧
    pydoc_lines_for b ⟨mod, cls⟩ name = [] ∧
    expand_auto_directives b lines = lines ∧
    register_index b ⟨mod, cls⟩ idx name lineno = idx := by
  refine ⟨?_, ?_, ?_, ?_, ?_, ?_⟩
  · simp [is_valid_name, herr name]
  · simp [is_valid_name, herr name, hnf name]
  · exact resolve_name_none_of_importError b herr mod cls name
  · exact pydoc_lines_for_nil_of_importError b herr ⟨mod, cls⟩ name
  · exact expandGo_id_of_importError b herr lines _
  · simp [register_index, resolve_name_none_of_importError b herr]

/-- Witness for C3 at a concrete backend, name, document and index. -/
theorem C3_witness :
    is_valid_name importErrorBackend "foo" = false ∧
    is_valid_name importErrorBackend "foo" =
      is_valid_name notFoundBackend "foo" ∧
    resolve_name importErrorBackend (some "pkg") (some "Cls") "foo" = none ∧
    pydoc_lines_for importErrorBackend ⟨some "pkg", some "Cls"⟩ "foo" = [] ∧
    expand_auto_directives importErrorBackend [".. autofunction:: foo"] =
      [".. autofunction:: foo"] ∧
    register_index importErrorBackend ⟨some "pkg", some "Cls"⟩
      (fun _ => none) "foo" 3 = (fun _ => none) :=
  C3_import_error_treated_as_not_found importErrorBackend notFoundBackend
    "foo" (some "pkg") (some "Cls") [".. autofunction:: foo"]
    (fun _ => none) 3 (fun _ => rfl) (fun _ => rfl)

theorem register_index_eq_applyEvents (b : Backend) (ctx : Ctx) (idx : Index)
    (name : String) (lineno : Nat) :
    register_index b ctx idx name lineno =
      applyEvents idx (registerEvents b ctx name lineno) := by
  simp only [register_index, registerEvents]
  split
  · split <;> simp [applyEvents, updateIdx]
  · simp [applyEvents]

theorem applyEvents_append (idx : Index) (a c : List (String × Nat)) :
    applyEvents idx (a ++ c) = applyEvents (applyEvents idx a) c :=
  List.foldl_append ..

/-- One step of the indexing loop, phrased through the assignment events of
the line: `none` models the raised `TypeError`. -/
theorem parseIndicesGo_cons (b : Backend) (line : String) (rest : List String)
    (lineno : Nat) (ctx : Ctx) (idx : Index) :
    parseIndicesGo b (line :: rest) lineno ctx idx =
      match lineEvents b ctx line lineno with
      | none => none
      | some evs =>
        parseIndicesGo b rest (lineno + 1) (track_context ctx line)
          (applyEvents idx evs) := by
  rw [parseIndicesGo]
  simp only [lineEvents]
  rcases hkv : parse_directive line with ⟨ko, vo⟩
  have hreg : ∀ (i : Index) (nm : String),
      register_index b ctx i nm lineno =
        applyEvents i (registerEvents b ctx nm lineno) :=
    fun i nm => register_index_eq_applyEvents b ctx i nm lineno
  cases hs : searchMethodSig line.data with
  | some g =>
    cases hc : ctx.cls with
    | none => simp
    | some c =>
      cases ko with
      | none => simp [hreg, applyEvents_append, applyEvents]
      | some key =>
        cases vo with
        | none => simp [hreg, applyEvents_append, applyEvents]
        | some v =>
          by_cases hP : key ∈ DIRECTIVES_TO_INCLUDE ∧ v ≠ ""
          · simp [hP, hreg, applyEvents_append]
          · simp [hP, hreg, applyEvents_append, applyEvents]
  | none =>
    cases ko with
    | none => simp [applyEvents]
    | some key =>
      cases vo with
      | none => simp [applyEvents]
      | some v =>
        by_cases hP : key ∈ DIRECTIVES_TO_INCLUDE ∧ v ≠ ""
        · simp [hP, hreg]
        · simp [hP, applyEvents]

theorem parseIndicesGo_none_of_sig (b : Backend) :
    ∀ (lines : List String) (lineno : Nat) (ctx : Ctx) (idx : Index)
      (p : Nat) (hp : p < lines.length),
      (searchMethodSig ((lines.get ⟨p, hp⟩).data)).isSome →
      ((lines.take p).foldl track_context ctx).cls = none →
      parseIndicesGo b lines lineno ctx idx = none := by
  intro lines
  induction lines with
  | nil => intro _ _ _ p hp; exact absurd hp (by simp)
  | cons line rest ih =>
    intro lineno ctx idx p hp hsig hcls
    match p with
    | 0 =>
      simp only [List.take_zero, List.foldl_nil] at hcls
      obtain ⟨g, hg⟩ := Option.isSome_iff_exists.mp hsig
      simp only [List.get] at hg
      rw [parseIndicesGo]
      simp [hg, hcls]
    | q + 1 =>
      have hq : q < rest.length := by
        simpa [Nat.succ_lt_succ_iff] using hp
      have hcls2 : ((rest.take q).foldl track_context
          (track_context ctx line)).cls = none := by
        simpa [List.take_succ_cons] using hcls
      have hsig2 : (searchMethodSig ((rest.get ⟨q, hq⟩).data)).isSome := by
        simpa [List.get] using hsig
      rw [parseIndicesGo]
      cases hs : searchMethodSig line.data with
      | some g =>
        cases hc : ctx.cls with
        | none => simp [hs, hc]
        | some c => simp only [hs, hc]; exact ih _ _ _ q hq hsig2 hcls2
      | none => simp only [hs]; exact ih _ _ _ q hq hsig2 hcls2

/-- C10: if a line matching the rendered method-signature pattern occurs at a
position where no line before it (under the indexing pass's own context
tracking, which starts from a reset context) has established a class context,
the indexing pass raises an exception — the qualification concatenates an
absent class — modelled as the `none` result: it neither skips the line nor
indexes it unqualified. -/
theorem C10_method_sig_without_class_raises (b : Backend)
    (lines : List String) (p : Nat) (hp : p < lines.length)
    (hsig : (searchMethodSig ((lines.get ⟨p, hp⟩).data)).isSome)
    (hcls : ((lines.take p).foldl track_context
        { module := none, cls := none }).cls = none) :
    parse_indices b lines (fun _ => none) = none :=
  parseIndicesGo_none_of_sig b lines 0 _ _ p hp hsig hcls

/-- Witness for C10: a lone method-signature line, no class context. -/
theorem C10_witness :
    parse_indices allValidBackend [methodSigLine] (fun _ => none) = none :=
  C10_method_sig_without_class_raises allValidBackend [methodSigLine] 0
    (by decide) (by decide) rfl

theorem registerEvents_snd (b : Backend) (ctx : Ctx) (name : String)
    (lineno : Nat) : ∀ e ∈ registerEvents b ctx name lineno, e.2 = lineno := by
  intro e he
  simp only [registerEvents] at he
  split at he
  · split at he <;> simp_all
  · simp at he

theorem lineEvents_snd (b : Backend) (ctx : Ctx) (line : String) (lineno : Nat)
    (evs : List (String × Nat)) (h : lineEvents b ctx line lineno = some evs) :
    ∀ e ∈ evs, e.2 = lineno := by
  intro e he
  simp only [lineEvents] at h
  split at h
  · split at h
    · exact absurd h (by simp)
    · obtain rfl := Option.some.inj h
      rcases List.mem_append.mp he with h2 | h2
      · split at h2
        · split at h2
          · exact registerEvents_snd _ _ _ _ e h2
          · simp at h2
        · simp at h2
      · exact registerEvents_snd _ _ _ _ e h2
  · obtain rfl := Option.some.inj h
    split at he
    · split at he
      · exact registerEvents_snd _ _ _ _ e he
      · simp at he
    · simp at he

theorem lastVal_mem :
    ∀ (evs : List (String × Nat)) (k : String) (v : Nat),
      lastVal evs k = some v → ∃ e ∈ evs, e.2 = v := by
  intro evs
  induction evs with
  | nil => intro k v h; simp [lastVal] at h
  | cons e evs ih =>
    intro k v h
    rw [lastVal] at h
    cases hl : lastVal evs k with
    | some w =>
      rw [hl] at h
      have hwv : w = v := by simpa using h
      obtain ⟨e2, he2, hv⟩ := ih k w hl
      exact ⟨e2, List.mem_cons_of_mem e he2, by omega⟩
    | none =>
      rw [hl] at h
      by_cases hk : k = e.1
      · have he : e.2 = v := by simpa [hk] using h
        exact ⟨e, List.mem_cons_self e evs, he⟩
      · simp [hk] at h

theorem applyEvents_lookup :
    ∀ (evs : List (String × Nat)) (idx : Index) (k : String),
      applyEvents idx evs k =
        (match lastVal evs k with
         | some v => some v
         | none => idx k) := by
  intro evs
  induction evs with
  | nil => intro idx k; rfl
  | cons e evs ih =>
    intro idx k
    show applyEvents (updateIdx idx e.1 e.2) evs k = _
    rw [ih, lastVal]
    cases hl : lastVal evs k with
    | some v => rfl
    | none =>
      by_cases hk : k = e.1 <;> simp [updateIdx, hk]

theorem applyEvents_self (idx : Index) (evs : List (String × Nat)) :
    applyEvents (applyEvents idx evs) evs = applyEvents idx evs := by
  funext k
  rw [applyEvents_lookup, applyEvents_lookup]
  cases hl : lastVal evs k with
  | some v => rfl
  | none => rfl

theorem parseIndicesGo_eq_events (b : Backend) :
    ∀ (lines : List String) (lineno : Nat) (ctx : Ctx) (idx : Index),
      parseIndicesGo b lines lineno ctx idx =
        (indexEventsGo b lines lineno ctx).map
          (fun evs => applyEvents idx evs) := by
  intro lines
  induction lines with
  | nil => intro _ _ idx; simp [parseIndicesGo, indexEventsGo, applyEvents]
  | cons line rest ih =>
    intro lineno ctx idx
    rw [parseIndicesGo_cons, indexEventsGo]
    cases hev : lineEvents b ctx line lineno with
    | none => simp
    | some evs =>
      simp only
      rw [ih]
      cases indexEventsGo b rest (lineno + 1) (track_context ctx line) with
      | none => simp
      | some evs2 => simp [applyEvents_append]

/-- C8: indexing is idempotent — if an indexing pass over a fixed line
sequence (with a deterministic backend) succeeds and produces the mapping
`idx1`, then running the same pass again starting from `idx1` (as the code
does, since `self.indices` persists) succeeds and produces exactly `idx1`. -/
theorem C8_indexing_idempotent (b : Backend) (lines : List String)
    (idx0 idx1 : Index) (h : parse_indices b lines idx0 = some idx1) :
    parse_indices b lines idx1 = some idx1 := by
  unfold parse_indices at h ⊢
  rw [parseIndicesGo_eq_events] at h ⊢
  cases hev : indexEventsGo b lines 0 { module := none, cls := none } with
  | none => rw [hev] at h; simp at h
  | some evs =>
    rw [hev] at h
    simp only [Option.map] at h ⊢
    obtain rfl := Option.some.inj h
    rw [applyEvents_self]

/-- Witness for C8: a one-line document that registers `m ↦ 0`. -/
theorem C8_witness :
    parse_indices allValidBackend [".. module:: m"]
        (updateIdx (fun _ => none) "m" 0) =
      some (updateIdx (fun _ => none) "m" 0) :=
  C8_indexing_idempotent allValidBackend [".. module:: m"] (fun _ => none)
    (updateIdx (fun _ => none) "m" 0) rfl

theorem parseIndicesGo_bound (b : Backend) :
    ∀ (lines : List String) (lineno : Nat) (ctx : Ctx) (idx idx2 : Index),
      parseIndicesGo b lines lineno ctx idx = some idx2 →
      (∀ k n, idx k = some n → n < lineno) →
      ∀ k n, idx2 k = some n → n < lineno + lines.length := by
  intro lines
  induction lines with
  | nil =>
    intro lineno ctx idx idx2 hrun hb k n hk
    obtain rfl := Option.some.inj hrun
    simpa using Nat.lt_of_lt_of_le (hb k n hk) (by simp)
  | cons line rest ih =>
    intro lineno ctx idx idx2 hrun hb k n hk
    rw [parseIndicesGo_cons] at hrun
    cases hev : lineEvents b ctx line lineno with
    | none => rw [hev] at hrun; simp at hrun
    | some evs =>
      rw [hev] at hrun
      have hb2 : ∀ k n, applyEvents idx evs k = some n → n < lineno + 1 := by
        intro k2 n2 h2
        rw [applyEvents_lookup] at h2
        cases hl : lastVal evs k2 with
        | some v =>
          rw [hl] at h2
          have hveq : v = n2 := by simpa using h2
          obtain ⟨e, he, hv⟩ := lastVal_mem evs k2 v hl
          have := lineEvents_snd b ctx line lineno evs hev e he
          omega
        | none =>
          rw [hl] at h2
          exact Nat.lt_succ_of_lt (hb k2 n2 h2)
      have := ih (lineno + 1) (track_context ctx line) _ idx2 hrun hb2 k n hk
      simp only [List.length_cons]
      omega

/-- C9: after the full pipeline (expansion, then indexing) completes on any
input, every line number stored in the symbol index is a valid zero-based
position in the final expanded line sequence. -/
theorem C9_index_linenos_in_range (b : Backend) (lines expanded : List String)
    (idx : Index) (k : String) (n : Nat)
    (hp : parse b lines = some (expanded, idx)) (hk : idx k = some n) :
    n < expanded.length := by
  simp only [parse] at hp
  cases hpi : parse_indices b (expand_auto_directives b lines)
      (fun _ => none) with
  | none => rw [hpi] at hp; simp at hp
  | some idx2 =>
    rw [hpi] at hp
    simp only [Option.map, Option.some.injEq, Prod.mk.injEq] at hp
    obtain ⟨rfl, rfl⟩ := hp
    have := parseIndicesGo_bound b (expand_auto_directives b lines) 0 _ _ _
      hpi (by intro k2 n2 h2; exact absurd h2 (by simp)) k n hk
    simpa using this

/-- Witness for C9: index entry `m ↦ 0` lies inside the one-line result. -/
theorem C9_witness : 0 < ([".. module:: m"] : List String).length :=
  C9_index_linenos_in_range allValidBackend [".. module:: m"]
    [".. module:: m"] (updateIdx (fun _ => none) "m" 0) "m" 0 rfl rfl

/-- Counterexample to C4: the code's allow-list contains `c:function` (with a
colon), not the claimed `c-function`.  A `.. c-function:: foo` directive with
a non-empty value whose resolution would succeed (every name is valid for
this backend) is nevertheless not indexed: the index stays empty at `foo`. -/
theorem C4_counterexample :
    parse_directive ".. c-function:: foo" = (some "c-function", some "foo") ∧
    is_valid_name allValidBackend "foo" = true ∧
    "c-function" ∉ DIRECTIVES_TO_INCLUDE ∧
    (parse_indices allValidBackend [".. c-function:: foo"]
        (fun _ => none)).map (fun f => f "foo") = some none :=
  ⟨rfl, rfl, by decide, rfl⟩

/-- C4 (amended: the allow-list entries are `c:function`, `c:var`, `c:type` —
with colons, hence unreachable, since a parsed directive name never contains a
colon — rather than `c-function`, `c-var`, `c-type`): on a directive line with
a non-empty value and no method-signature pattern, the indexing step records,
for an allow-listed directive, the paren-stripped value's resolution (on
success) at the line's number, overwriting any prior entry; a directive
outside the allow-list leaves the index untouched. -/
theorem C4_amended_allow_list_indexing (b : Backend) (ctx : Ctx) (idx : Index)
    (lineno : Nat) (line : String) (rest : List String) (key v : String)
    (h1 : parse_directive line = (some key, some v)) (h2 : v ≠ "")
    (h3 : searchMethodSig line.data = none) :
    parseIndicesGo b (line :: rest) lineno ctx idx =
      parseIndicesGo b rest (lineno + 1) (track_context ctx line)
        (if key ∈ DIRECTIVES_TO_INCLUDE then
          (match resolve_name b ctx.module ctx.cls
              (String.mk (subParen v.data)) with
           | some n => if n ≠ "" then updateIdx idx n lineno else idx
           | none => idx)
         else idx) := by
  rw [parseIndicesGo]
  simp only [h1, h3]
  by_cases hk : key ∈ DIRECTIVES_TO_INCLUDE
  · simp [hk, h2, register_index]
  · simp [hk]

/-- Witness for C4 (amended) at a concrete allow-listed directive line. -/
theorem C4_witness :
    parseIndicesGo allValidBackend [".. module:: foo"] 0
        { module := none, cls := none } (fun _ => none) =
      parseIndicesGo allValidBackend [] 1
        (track_context { module := none, cls := none } ".. module:: foo")
        (if "module" ∈ DIRECTIVES_TO_INCLUDE then
          (match resolve_name allValidBackend none none
              (String.mk (subParen ("foo").data)) with
           | some n => if n ≠ "" then updateIdx (fun _ => none) n 0
             else (fun _ => none)
           | none => (fun _ => none))
         else (fun _ => none)) :=
  C4_amended_allow_list_indexing allValidBackend { module := none, cls := none }
    (fun _ => none) 0 ".. module:: foo" [] "module" "foo" rfl (by decide) rfl

/-- Counterexample to C5: a document with no directive lines whose indexing
is nevertheless non-empty — a pydoc-style `= class Foo` line establishes a
class context and a rendered method-signature line is then indexed. -/
theorem C5_counterexample :
    parse_directive "x = class Foo" = (none, none) ∧
    parse_directive methodSigLine = (none, none) ∧
    (parse_indices allValidBackend ["x = class Foo", methodSigLine]
        (fun _ => none)).map (fun f => f "Foo.Foo.m") = some (some 1) :=
  ⟨rfl, rfl, rfl⟩

theorem expandGo_id_of_no_directives (b : Backend) :
    ∀ (lines : List String) (ctx : Ctx),
      (∀ l ∈ lines, parse_directive l = (none, none)) →
      expandGo b lines ctx = lines := by
  intro lines
  induction lines with
  | nil => intro _ _; rfl
  | cons line rest ih =>
    intro ctx h
    rw [expandGo]
    have h0 := h line (List.mem_cons_self ..)
    simp [h0, ih _ (fun l hl => h l (List.mem_cons_of_mem _ hl))]

theorem parseIndicesGo_id_of_plain (b : Backend) :
    ∀ (lines : List String) (lineno : Nat) (ctx : Ctx) (idx : Index),
      (∀ l ∈ lines, parse_directive l = (none, none)) →
      (∀ l ∈ lines, searchMethodSig l.data = none) →
      parseIndicesGo b lines lineno ctx idx = some idx := by
  intro lines
  induction lines with
  | nil => intro _ _ _ _ _; rfl
  | cons line rest ih =>
    intro lineno ctx idx h1 h2
    rw [parseIndicesGo]
    have h10 := h1 line (List.mem_cons_self ..)
    have h20 := h2 line (List.mem_cons_self ..)
    simp only [h10, h20]
    exact ih _ _ _ (fun l hl => h1 l (List.mem_cons_of_mem _ hl))
      (fun l hl => h2 l (List.mem_cons_of_mem _ hl))

/-- C5 (amended: restricted to inputs that also contain no rendered
method-signature lines, which the code indexes although they are not
directives): on such documents, expansion leaves the line sequence unchanged
and the full pipeline produces an empty symbol index. -/
theorem C5_amended_no_directives (b : Backend) (lines : List String)
    (h1 : ∀ l ∈ lines, parse_directive l = (none, none))
    (h2 : ∀ l ∈ lines, searchMethodSig l.data = none) :
    expand_auto_directives b lines = lines ∧
    parse b lines = some (lines, fun _ => none) := by
  have hexp : expand_auto_directives b lines = lines :=
    expandGo_id_of_no_directives b lines _ h1
  refine ⟨hexp, ?_⟩
  simp only [parse, hexp, parse_indices]
  rw [parseIndicesGo_id_of_plain b lines 0 _ _ h1 h2]
  rfl

/-- Witness for C5 (amended) on a directive-free, signature-free document. -/
theorem C5_witness :
    expand_auto_directives notFoundBackend ["plain text", "more text"] =
      ["plain text", "more text"] ∧
    parse notFoundBackend ["plain text", "more text"] =
      some (["plain text", "more text"], fun _ => none) :=
  C5_amended_no_directives notFoundBackend ["plain text", "more text"]
    (by decide) (by decide)

/-- Counterexample to C6: `parse_directive` uses `re.search`, so the pattern
may match anywhere in the line — a line that does not begin with two dots
still yields a directive pair. -/
theorem C6_counterexample :
    parse_directive "x.. a:: b" = (some "a", some "b") ∧
    ("x.. a:: b").data.take 2 ≠ ['.', '.'] :=
  ⟨rfl, by decide⟩

theorem matchDirectiveFrom_some_decomp {l g1 g2 : List Char}
    (h : matchDirectiveFrom l = some (g1, g2)) :
    ∃ sps sps2, (∀ c ∈ sps, c = ' ') ∧ (∀ c ∈ sps2, c = ' ') ∧
      g1 ≠ [] ∧ (∀ c ∈ g1, c ≠ ':') ∧
      l = '.' :: '.' :: (sps ++ g1 ++ ':' :: ':' :: (sps2 ++ g2)) := by
  rw [matchDirectiveFrom.eq_def] at h
  split at h
  case h_2 => exact absurd h (by simp)
  case h_1 rest =>
    simp only at h
    split at h
    · exact absurd h (by simp)
    · rename_i hne
      split at h
      case h_2 => exact absurd h (by simp)
      case h_1 x cls2 after heq =>
        simp only [Option.some.injEq, Prod.mk.injEq] at h
        obtain ⟨hg1, hg2⟩ := h
        set t := rest.takeWhile (fun c => decide (c ≠ ':')) with ht
        obtain ⟨suf, hsuf⟩ := (List.takeWhile_prefix
          (fun c => decide (c ≠ ':')) : t <+: rest)
        have hsufeq : suf = rest.drop t.length := by
          have := congrArg (List.drop t.length) hsuf
          rwa [List.drop_left] at this
        have hrest : rest = t ++ ':' :: ':' :: after := by
          rw [← hsuf, hsufeq, heq]
        have htcolon : ∀ c ∈ t, c ≠ ':' := by
          intro c hc
          simpa using List.mem_takeWhile_imp hc
        have hsps2 : ∀ c ∈ after.takeWhile (fun c => decide (c = ' ')),
            c = ' ' := by
          intro c hc
          simpa using List.mem_takeWhile_imp hc
        have hafter : after =
            after.takeWhile (fun c => decide (c = ' ')) ++ g2 := by
          rw [← hg2]
          exact (List.takeWhile_append_dropWhile
            (fun c => decide (c = ' ')) after).symm
        by_cases hsp : (t.dropWhile (fun c => decide (c = ' '))).isEmpty
        · -- the whole run is spaces: the captured group is one space
          have hall : ∀ c ∈ t, c = ' ' := by
            have := (List.dropWhile_eq_nil_iff).mp
              (List.isEmpty_iff.mp hsp)
            intro c hc
            simpa using this c hc
          have htne : t ≠ [] := by
            intro h0
            rw [h0] at hne
            simp at hne
          have hg1sp : g1 = [' '] := by
            rw [← hg1]; simp [hsp]
          have hdl : t.dropLast ++ [' '] = t := by
            conv_rhs => rw [← List.dropLast_append_getLast htne]
            congr 1
            simp [hall _ (List.getLast_mem htne)]
          refine ⟨t.dropLast, after.takeWhile (fun c => decide (c = ' ')),
            ?_, hsps2, ?_, ?_, ?_⟩
          · intro c hc
            exact hall c (List.dropLast_subset t hc)
          · simp [hg1sp]
          · intro c hc; rw [hg1sp] at hc; simp at hc; simp [hc]
          · rw [hrest, hg1sp, ← hafter, hdl]
        · -- the group is the run minus its leading spaces
          have hg1eq : g1 = t.dropWhile (fun c => decide (c = ' ')) := by
            rw [← hg1]; simp [hsp]
          have hsplit : t.takeWhile (fun c => decide (c = ' ')) ++ g1 = t := by
            rw [hg1eq]
            exact List.takeWhile_append_dropWhile (fun c => decide (c = ' ')) t
          refine ⟨t.takeWhile (fun c => decide (c = ' ')),
            after.takeWhile (fun c => decide (c = ' ')), ?_, hsps2, ?_, ?_, ?_⟩
          · intro c hc
            simpa using List.mem_takeWhile_imp hc
          · rw [hg1eq]
            intro h0
            rw [h0] at hsp
            simp at hsp
          · intro c hc
            apply htcolon
            rw [← hsplit]
            exact List.mem_append_right _ hc
          · rw [hrest, ← hafter, hsplit]

theorem searchDirective_some_decomp :
    ∀ (l : List Char) (g1 g2 : List Char),
      searchDirective l = some (g1, g2) →
      ∃ pre sps sps2, (∀ c ∈ sps, c = ' ') ∧ (∀ c ∈ sps2, c = ' ') ∧
        g1 ≠ [] ∧ (∀ c ∈ g1, c ≠ ':') ∧
        l = pre ++ '.' :: '.' :: (sps ++ g1 ++ ':' :: ':' :: (sps2 ++ g2)) := by
  intro l
  induction l with
  | nil => intro g1 g2 h; simp [searchDirective] at h
  | cons c cs ih =>
    intro g1 g2 h
    rw [searchDirective] at h
    cases hm : matchDirectiveFrom (c :: cs) with
    | some r =>
      rw [hm] at h
      obtain rfl := Option.some.inj h
      obtain ⟨sps, sps2, h1, h2, h3, h4, h5⟩ := matchDirectiveFrom_some_decomp
        (by rw [hm])
      exact ⟨[], sps, sps2, h1, h2, h3, h4, by simpa using h5⟩
    | none =>
      rw [hm] at h
      obtain ⟨pre, sps, sps2, h1, h2, h3, h4, h5⟩ := ih g1 g2 h
      exact ⟨c :: pre, sps, sps2, h1, h2, h3, h4, by simp [h5]⟩

theorem takeWhile_ne_colon_append (t rest : List Char)
    (ht : ∀ c ∈ t, c ≠ ':') :
    (t ++ ':' :: rest).takeWhile (fun c => decide (c ≠ ':')) = t := by
  induction t with
  | nil => simp
  | cons c t2 ih =>
    have hc : c ≠ ':' := ht c (List.mem_cons_self ..)
    have ih2 := ih (fun x hx => ht x (List.mem_cons_of_mem _ hx))
    simp only [decide_not] at ih2
    simp [List.cons_append, List.takeWhile_cons, hc]
    exact ih2

theorem matchDirectiveFrom_isSome_shape (t rest : List Char) (ht1 : t ≠ [])
    (ht2 : ∀ c ∈ t, c ≠ ':') :
    (matchDirectiveFrom ('.' :: '.' :: (t ++ ':' :: ':' :: rest))).isSome := by
  rw [matchDirectiveFrom]
  have h1 : (t ++ ':' :: ':' :: rest).takeWhile
      (fun c => decide (c ≠ ':')) = t := takeWhile_ne_colon_append t _ ht2
  simp only [h1]
  rw [List.drop_left]
  simp [ht1]

theorem searchDirective_isSome_of_match (l : List Char)
    (h : (matchDirectiveFrom l).isSome) : (searchDirective l).isSome := by
  cases l with
  | nil => simp [matchDirectiveFrom] at h
  | cons c cs =>
    rw [searchDirective]
    cases hm : matchDirectiveFrom (c :: cs) with
    | some r => simp
    | none => rw [hm] at h; simp at h

theorem searchDirective_isSome_append (pre l : List Char)
    (h : (searchDirective l).isSome) :
    (searchDirective (pre ++ l)).isSome := by
  induction pre with
  | nil => simpa using h
  | cons c pre2 ih =>
    rw [List.cons_append, searchDirective]
    cases hm : matchDirectiveFrom (c :: (pre2 ++ l)) with
    | some r => simp
    | none => simpa using ih

/-- C6 (amended: the regex is applied with `re.search`, so the pattern may
occur anywhere in the line, not only at its start; whitespace means spaces
and the value may be empty): `parse_directive` returns a pair exactly when
the line contains, at any position, two dots followed by optional spaces, a
nonempty directive name without a colon, `::`, optional spaces and a value;
and any returned pair arises from such a decomposition of the line. -/
theorem C6_amended_directive_recognition (line : String) :
    ((parse_directive line ≠ (none, none)) ↔
      ∃ pre t rest, t ≠ [] ∧ (∀ ch ∈ t, ch ≠ ':') ∧
        line.data = pre ++ '.' :: '.' :: (t ++ ':' :: ':' :: rest)) ∧
    (∀ key v, parse_directive line = (some key, some v) →
      ∃ pre sps sps2, (∀ ch ∈ sps, ch = ' ') ∧ (∀ ch ∈ sps2, ch = ' ') ∧
        key ≠ "" ∧ (∀ ch ∈ key.data, ch ≠ ':') ∧
        line.data = pre ++ '.' :: '.' ::
          (sps ++ key.data ++ ':' :: ':' :: (sps2 ++ v.data))) := by
  constructor
  · constructor
    · intro h
      rcases hs : searchDirective line.data with _ | ⟨g1, g2⟩
      · exact absurd (by simp [parse_directive, hs]) h
      · obtain ⟨pre, sps, sps2, h1, h2, h3, h4, h5⟩ :=
          searchDirective_some_decomp line.data g1 g2 hs
        refine ⟨pre, sps ++ g1, sps2 ++ g2, by simp [h3], ?_, by simpa using h5⟩
        intro ch hch
        rcases List.mem_append.mp hch with hch | hch
        · simp [h1 ch hch]
        · exact h4 ch hch
    · rintro ⟨pre, t, rest, ht1, ht2, hline⟩
      have hsome : (searchDirective line.data).isSome := by
        rw [hline]
        exact searchDirective_isSome_append pre _
          (searchDirective_isSome_of_match _
            (matchDirectiveFrom_isSome_shape t rest ht1 ht2))
      rcases hs : searchDirective line.data with _ | ⟨g1, g2⟩
      · rw [hs] at hsome; simp at hsome
      · simp [parse_directive, hs]
  · intro key v h
    rcases hs : searchDirective line.data with _ | ⟨g1, g2⟩
    · simp [parse_directive, hs] at h
    · have hkv : key = String.mk g1 ∧ v = String.mk g2 := by
        simpa [parse_directive, hs] using h.symm
      obtain ⟨rfl, rfl⟩ := hkv
      obtain ⟨pre, sps, sps2, h1, h2, h3, h4, h5⟩ :=
        searchDirective_some_decomp line.data g1 g2 hs
      refine ⟨pre, sps, sps2, h1, h2, ?_, by simpa using h4, by simpa using h5⟩
      intro h0
      exact h3 (by simpa using congrArg String.data h0)

/-- Witness for C6 (amended): a concrete directive line decomposes. -/
theorem C6_witness :
    parse_directive ".. foo:: bar" ≠ (none, none) :=
  (C6_amended_directive_recognition ".. foo:: bar").1.mpr
    ⟨[], [' ', 'f', 'o', 'o'], [' ', 'b', 'a', 'r'],
      by decide, by decide, by decide⟩

/-- Counterexample to C7: the block regex requires a preceding newline
(`\n.. autosummary::...`), so an autosummary block at the very start of the
input is left completely unchanged, while the same block preceded by any line
is rewritten. -/
theorem C7_counterexample :
    read ".. autosummary::\n\n   foo\n   bar\n\n" =
      [".. autosummary::", "", "   foo", "   bar", ""] ∧
    read "x\n.. autosummary::\n\n   foo\n   bar\n\n" =
      ["x", ".. autosummary_:: foo", ".. autosummary_:: bar", ""] :=
  ⟨rfl, rfl⟩

/-- No two consecutive newlines anywhere in the list. -/
def chainOkNN : List Char → Prop
  | a :: b :: rest => ¬(a = '\n' ∧ b = '\n') ∧ chainOkNN (b :: rest)
  | _ => True

theorem chainOkNN_of_nf (l : List Char) (h : ∀ c ∈ l, c ≠ '\n') :
    chainOkNN l := by
  induction l with
  | nil => trivial
  | cons c cs ih =>
    cases cs with
    | nil => trivial
    | cons d ds =>
      refine ⟨fun hcd => h c (List.mem_cons_self ..) hcd.1, ?_⟩
      exact ih (fun x hx => h x (List.mem_cons_of_mem _ hx))

theorem chainOkNN_append (a b : List Char) (ha : chainOkNN a)
    (hb : chainOkNN b) (hj : a.getLast? = some '\n' → b.head? ≠ some '\n') :
    chainOkNN (a ++ b) := by
  induction a with
  | nil => simpa using hb
  | cons x a2 ih =>
    cases a2 with
    | nil =>
      cases b with
      | nil => trivial
      | cons y b2 =>
        refine ⟨fun hxy => ?_, hb⟩
        exact hj (by simp [hxy.1]) (by simp [hxy.2])
    | cons x2 a3 =>
      refine ⟨ha.1, ?_⟩
      exact ih ha.2 (by simpa using hj)

theorem getLast?_ne_nl_of_nf (l : List Char) (h : ∀ c ∈ l, c ≠ '\n') :
    l.getLast? ≠ some '\n' := by
  cases hl : l.getLast? with
  | none => simp
  | some c =>
    have : c ∈ l := List.mem_of_getLast?_eq_some hl
    simp [h c this]

theorem findInner_length :
    ∀ (l : List Char) (g r : List Char), findInner l = some (g, r) →
      r.length < l.length
  | [], g, r, h => by simp [findInner] at h
  | c :: cs, g, r, h => by
    rw [findInner] at h
    split at h
    · rename_i hnn
      obtain ⟨rfl, rfl⟩ := by simpa using h
      have : cs.length ≥ 2 := by
        by_contra hlt
        have : cs.take 2 = cs := List.take_of_length_le (by omega)
        rw [this] at hnn
        subst hnn
        simp at hlt
      simp only [List.length_cons, List.length_drop]
      omega
    · simp only [Option.map_eq_some'] at h
      obtain ⟨gr, hgr, heq⟩ := h
      have := findInner_length cs gr.1 gr.2 (by rw [hgr])
      cases heq
      simp only [List.length_cons]
      omega

theorem findTail_length :
    ∀ (l : List Char) (g r : List Char), findTail l = some (g, r) →
      r.length < l.length
  | [], g, r, h => by simp [findTail] at h
  | c :: cs, g, r, h => by
    rw [findTail] at h
    split at h
    · cases hgr : findInner cs.tail with
      | some gr =>
        cases gr with
        | mk g2 r2 =>
          rw [hgr] at h
          simp only [Option.some.injEq, Prod.mk.injEq] at h
          obtain ⟨rfl, rfl⟩ := h
          have h1 := findInner_length cs.tail g2 r2 hgr
          have h2 : cs.tail.length ≤ cs.length := by cases cs <;> simp
          simp only [List.length_cons]
          omega
      | none =>
        rw [hgr] at h
        have := findTail_length cs g r h
        simp only [List.length_cons]
        omega
    · have := findTail_length cs g r h
      simp only [List.length_cons]
      omega

theorem matchASFrom_length {l : List Char} {g r : List Char}
    (h : matchASFrom l = some (g, r)) : r.length < l.length := by
  rw [matchASFrom.eq_def] at h
  split at h
  · split at h
    · have := findTail_length _ _ _ h
      simp only [List.length_cons, List.length_drop] at this ⊢
      omega
    · simp at h
  · simp at h

theorem reSubASFuel_congr :
    ∀ (fuel1 fuel2 : Nat) (l : List Char),
      l.length ≤ fuel1 → l.length ≤ fuel2 →
      reSubASFuel fuel1 l = reSubASFuel fuel2 l := by
  intro fuel1
  induction fuel1 with
  | zero =>
    intro fuel2 l h1 _
    have hl : l = [] := List.eq_nil_of_length_eq_zero (Nat.le_zero.mp h1)
    subst hl
    cases fuel2 <;> rfl
  | succ f ih =>
    intro fuel2 l h1 h2
    cases l with
    | nil => cases fuel2 <;> rfl
    | cons c cs =>
      cases fuel2 with
      | zero => simp at h2
      | succ f2 =>
        rw [reSubASFuel, reSubASFuel]
        cases hm : matchASFrom (c :: cs) with
        | some gr =>
          cases gr with
          | mk g r =>
            have hlen := matchASFrom_length hm
            simp only [List.length_cons] at h1 h2 hlen
            simp only [ih f2 r (by omega) (by omega)]
        | none =>
          simp only [List.length_cons] at h1 h2
          simp only [ih f2 cs (by omega) (by omega)]

theorem reSubAS_cons_none (c : Char) (cs : List Char)
    (h : matchASFrom (c :: cs) = none) :
    reSubAS (c :: cs) = c :: reSubAS cs := by
  show reSubASFuel (c :: cs).length (c :: cs) = _
  rw [List.length_cons, reSubASFuel, h]
  rfl

theorem reSubAS_cons_some (c : Char) (cs : List Char)
    (gr : List Char × List Char) (h : matchASFrom (c :: cs) = some gr) :
    reSubAS (c :: cs) = replAutoloaded gr.1 ++ reSubAS gr.2 := by
  cases gr with
  | mk g r =>
    have hlen := matchASFrom_length h
    simp only [List.length_cons] at hlen
    show reSubASFuel (c :: cs).length (c :: cs) = _
    rw [List.length_cons, reSubASFuel, h]
    exact congrArg (fun z => replAutoloaded g ++ z)
      (reSubASFuel_congr cs.length r.length r (by omega) (Nat.le_refl _))

theorem findInner_exact :
    ∀ (xs tail : List Char), xs ≠ [] → chainOkNN xs →
      xs.getLast? ≠ some '\n' →
      findInner (xs ++ '\n' :: '\n' :: tail) = some (xs, tail) := by
  intro xs
  induction xs with
  | nil => intro _ h; exact absurd rfl h
  | cons c cs ih =>
    intro tail _ hchain hlast
    cases cs with
    | nil =>
      rw [List.cons_append, List.nil_append, findInner]
      simp
    | cons d ds =>
      rw [List.cons_append, findInner]
      have hd2 : ((d :: ds) ++ '\n' :: '\n' :: tail).take 2 ≠ ['\n', '\n'] := by
        cases ds with
        | nil =>
          intro hcontra
          simp at hcontra
          exact hlast (by simp [hcontra])
        | cons e es =>
          intro hcontra
          simp at hcontra
          exact hchain.2.1 ⟨hcontra.1, hcontra.2⟩
      rw [if_neg hd2]
      have := ih tail (by simp) hchain.2 (by simpa using hlast)
      rw [this]
      rfl

theorem findTail_hit (X : List Char) (gr : List Char × List Char)
    (h : findInner X = some gr) :
    findTail ('\n' :: '\n' :: X) = some gr := by
  rw [findTail]
  simp [h]

theorem matchASFrom_block (Y : List Char) :
    matchASFrom ('\n' :: '.' :: '.' :: (asLit ++ Y)) = findTail Y := by
  rw [matchASFrom]
  rw [if_pos (List.isPrefixOf_iff_prefix.mpr (List.prefix_append asLit Y))]
  rw [List.drop_left]

theorem matchASFrom_none_of_ne_nl (c : Char) (cs : List Char) (h : c ≠ '\n') :
    matchASFrom (c :: cs) = none := by
  rw [matchASFrom.eq_def]
  split
  · rename_i heq; rw [List.cons.injEq] at heq; exact absurd heq.1 h
  · rfl

theorem reSubAS_nil : reSubAS [] = [] := rfl

theorem reSubAS_skip (pre rest : List Char) (h : ∀ c ∈ pre, c ≠ '\n') :
    reSubAS (pre ++ rest) = pre ++ reSubAS rest := by
  induction pre with
  | nil => simp
  | cons c pre2 ih =>
    rw [List.cons_append,
      reSubAS_cons_none c _ (matchASFrom_none_of_ne_nl c _
        (h c (List.mem_cons_self ..))),
      ih (fun x hx => h x (List.mem_cons_of_mem _ hx)), List.cons_append]

theorem splitNl_nf (l : List Char) (h : ∀ c ∈ l, c ≠ '\n') :
    splitNl l = [l] := by
  induction l with
  | nil => rfl
  | cons c cs ih =>
    rw [splitNl]
    rw [if_neg (h c (List.mem_cons_self ..))]
    rw [ih (fun x hx => h x (List.mem_cons_of_mem _ hx))]

theorem splitNl_append_nl (a b : List Char) (ha : ∀ c ∈ a, c ≠ '\n') :
    splitNl (a ++ '\n' :: b) = a :: splitNl b := by
  induction a with
  | nil => rw [List.nil_append, splitNl, if_pos rfl]
  | cons c a2 ih =>
    rw [List.cons_append, splitNl]
    rw [if_neg (ha c (List.mem_cons_self ..))]
    rw [ih (fun x hx => ha x (List.mem_cons_of_mem _ hx))]

theorem subLead_indent (e : List Char) (he : e.head? ≠ some ' ') :
    subLeadLine ([' ', ' ', ' '] ++ e) = asPseudo ++ e := by
  cases e with
  | nil => decide
  | cons d ds =>
    have hd : d ≠ ' ' := by simpa using he
    simp [subLeadLine, List.takeWhile_cons, List.dropWhile_cons, hd]

theorem splitlinesCh_of_last_nl (l : List Char) (h : l.getLast? = some '\n') :
    splitlinesCh l = (splitNl l).dropLast := by
  cases l with
  | nil => simp at h
  | cons c cs =>
    simp only [splitlinesCh]
    rw [if_pos h]

theorem asPseudo_nf : ∀ c ∈ asPseudo, c ≠ '\n' := by decide

/-- C7 (amended: the match additionally requires a newline before the block's
`.. ` line — a block at the very start of the input is left unchanged — and
the two dots of the pattern are matched as arbitrary characters): a block
consisting of a preceding line, a `.. autosummary::` line, a blank line,
indented entries, and a blank line is rewritten by `read` into one
`.. autosummary_:: <entry>` pseudo-directive line per entry, replacing the
block. -/
theorem C7_amended_autosummary_block (pre e1 e2 : String)
    (hpre : ∀ c ∈ pre.data, c ≠ '\n')
    (h1n : ∀ c ∈ e1.data, c ≠ '\n') (h2n : ∀ c ∈ e2.data, c ≠ '\n')
    (h1s : e1.data.head? ≠ some ' ') (h2s : e2.data.head? ≠ some ' ') :
    read (pre ++ "\n.. autosummary::\n\n   " ++ e1 ++ "\n   " ++ e2 ++ "\n\n")
      = [pre, ".. autosummary_:: " ++ e1, ".. autosummary_:: " ++ e2, ""] := by
  have hA1nf : ∀ c ∈ [' ', ' ', ' '] ++ e1.data, c ≠ '\n' := by
    intro c hc
    rcases List.mem_append.mp hc with hc | hc
    · simp at hc; simp [hc]
    · exact h1n c hc
  have hA2nf : ∀ c ∈ [' ', ' ', ' '] ++ e2.data, c ≠ '\n' := by
    intro c hc
    rcases List.mem_append.mp hc with hc | hc
    · simp at hc; simp [hc]
    · exact h2n c hc
  -- the captured entry block
  have hxs : chainOkNN (([' ', ' ', ' '] ++ e1.data) ++
      '\n' :: ([' ', ' ', ' '] ++ e2.data)) := by
    apply chainOkNN_append
    · exact chainOkNN_of_nf _ hA1nf
    · have : '\n' :: ([' ', ' ', ' '] ++ e2.data) =
          ['\n'] ++ ([' ', ' ', ' '] ++ e2.data) := rfl
      rw [this]
      apply chainOkNN_append
      · trivial
      · exact chainOkNN_of_nf _ hA2nf
      · intro _ hcontra
        simp at hcontra
    · intro hcontra
      exact absurd hcontra (getLast?_ne_nl_of_nf _ hA1nf)
  have hglapp : ∀ (a b : List Char), b.getLast? ≠ some '\n' → b ≠ [] →
      (a ++ b).getLast? ≠ some '\n' := by
    intro a b hb hbne
    rw [List.getLast?_append]
    cases hgl : b.getLast? with
    | none => exact absurd (by simpa using hgl) hbne
    | some x => rw [hgl] at hb; simpa using hb
  have hlastxs : (([' ', ' ', ' '] ++ e1.data) ++
      '\n' :: ([' ', ' ', ' '] ++ e2.data)).getLast? ≠ some '\n' := by
    apply hglapp
    · show (['\n'] ++ ([' ', ' ', ' '] ++ e2.data)).getLast? ≠ some '\n'
      apply hglapp
      · exact getLast?_ne_nl_of_nf _ hA2nf
      · simp
    · simp
  have hinner : findInner ((([' ', ' ', ' '] ++ e1.data) ++
      '\n' :: ([' ', ' ', ' '] ++ e2.data)) ++ '\n' :: '\n' :: []) =
      some ((([' ', ' ', ' '] ++ e1.data) ++
        '\n' :: ([' ', ' ', ' '] ++ e2.data)), []) :=
    findInner_exact _ [] (by simp) hxs hlastxs
  -- the whole raw text, decomposed around the block match
  have hdata : (pre ++ "\n.. autosummary::\n\n   " ++ e1 ++ "\n   " ++ e2
      ++ "\n\n").data =
      pre.data ++ '\n' :: '.' :: '.' :: (asLit ++ '\n' :: '\n' ::
        (((([' ', ' ', ' '] ++ e1.data) ++
          '\n' :: ([' ', ' ', ' '] ++ e2.data)) ++ '\n' :: '\n' :: []))) := by
    simp only [String.data_append]
    simp [asLit, List.append_assoc]
  rw [read, hdata]
  rw [reSubAS_skip _ _ hpre]
  rw [reSubAS_cons_some _ _ _ (by
    rw [matchASFrom_block]
    exact findTail_hit _ _ hinner)]
  rw [reSubAS_nil, List.append_nil]
  -- evaluate the replacement text
  have hsplit2 : subLeadingSpaces (([' ', ' ', ' '] ++ e1.data) ++
      '\n' :: ([' ', ' ', ' '] ++ e2.data)) =
      (asPseudo ++ e1.data) ++ '\n' :: (asPseudo ++ e2.data) := by
    rw [subLeadingSpaces, splitNl_append_nl _ _ hA1nf, splitNl_nf _ hA2nf]
    simp only [List.map_cons, List.map_nil]
    rw [subLead_indent _ h1s, subLead_indent _ h2s]
    rfl
  rw [replAutoloaded, hsplit2]
  -- split the normalized buffer into lines
  have hlines : splitlinesCh (pre.data ++
      '\n' :: (((asPseudo ++ e1.data) ++ '\n' :: (asPseudo ++ e2.data))
        ++ ['\n', '\n'])) =
      [pre.data, asPseudo ++ e1.data, asPseudo ++ e2.data, []] := by
    rw [splitlinesCh_of_last_nl _ (by
      rw [show pre.data ++ '\n' :: (((asPseudo ++ e1.data) ++
          '\n' :: (asPseudo ++ e2.data)) ++ ['\n', '\n'])
        = (pre.data ++ '\n' :: ((asPseudo ++ e1.data) ++
          '\n' :: (asPseudo ++ e2.data))) ++ ['\n', '\n'] by simp]
      rw [List.getLast?_append]
      simp)]
    rw [splitNl_append_nl _ _ hpre]
    rw [show ((asPseudo ++ e1.data) ++ '\n' :: (asPseudo ++ e2.data))
        ++ ['\n', '\n'] = (asPseudo ++ e1.data) ++
        '\n' :: ((asPseudo ++ e2.data) ++ ['\n', '\n']) by simp]
    rw [splitNl_append_nl _ _ (by
      intro c hc
      rcases List.mem_append.mp hc with hc | hc
      · exact asPseudo_nf c hc
      · exact h1n c hc)]
    rw [show (asPseudo ++ e2.data) ++ ['\n', '\n'] =
        (asPseudo ++ e2.data) ++ '\n' :: ['\n'] by rfl]
    rw [splitNl_append_nl _ _ (by
      intro c hc
      rcases List.mem_append.mp hc with hc | hc
      · exact asPseudo_nf c hc
      · exact h2n c hc)]
    rfl
  rw [List.cons_append, hlines]
  simp only [List.map_cons, List.map_nil]
  rfl

/-- Witness for C7 (amended): the spec's own example block with entries `foo`
and `bar`, preceded by a line `x`. -/
theorem C7_witness :
    read ("x" ++ "\n.. autosummary::\n\n   " ++ "foo" ++ "\n   " ++ "bar"
        ++ "\n\n") =
      ["x", ".. autosummary_:: " ++ "foo", ".. autosummary_:: " ++ "bar",
        ""] :=
  C7_amended_autosummary_block "x" "foo" "bar" (by decide) (by decide)
    (by decide) (by decide) (by decide)

end Rstparse
